import Mathlib

/-!
Shallow embedding of the EISH5 Morse Timing & Audio Rendering Engine.

Strings are modelled as `List Char`; JavaScript numbers are modelled as `ℚ`
(the arithmetic appearing in the engine is exact on the rationals except for
division by zero, which JavaScript maps to `Infinity` and `ℚ` maps to `0`;
where that matters it is called out at the theorem).  The JavaScript string
operations used by the engine (`split`, `join`, `trim`, `toUpperCase`, the
one regex replace) are defined below with JavaScript semantics restricted to
the ASCII characters this code base manipulates.
-/

/-- Whitespace test: the subset of JavaScript's whitespace class (used by
`trim` and by the regex class in `textToMorse`) that can appear in this
code base's strings. -/
def isWs (c : Char) : Bool :=
  c = ' ' || c = '\t' || c = '\n' || c = '\r'

/-- Left half of `String.prototype.trim`. -/
def trimL (s : List Char) : List Char := s.dropWhile isWs

/-- Right half of `String.prototype.trim`. -/
def trimR (s : List Char) : List Char := (s.reverse.dropWhile isWs).reverse

/-- Model of `String.prototype.trim`. -/
def trim (s : List Char) : List Char := trimR (trimL s)

/-- Model of `String.prototype.split` with a one-character separator:
every occurrence splits, empty pieces are kept, and the empty string
yields `[""]`. -/
def splitOnChar (sep : Char) : List Char → List (List Char)
  | [] => [[]]
  | c :: cs =>
    match splitOnChar sep cs with
    | [] => [[]]
    | w :: ws => if c = sep then [] :: w :: ws else (c :: w) :: ws

/-- Model of `Array.prototype.join`: pieces interleaved with a separator,
nothing added for the empty array. -/
def joinSep (sep : List Char) : List (List Char) → List Char
  | [] => []
  | [w] => w
  | w :: ws => w ++ sep ++ joinSep sep ws

/-- Model of `.replace(/\s\/\s/g, ' / ')` in `textToMorse`: scan left to
right; a whitespace/slash/whitespace triple is rewritten to
space/slash/space and scanning resumes after it. -/
def replaceWsSlashWs : List Char → List Char
  | a :: b :: c :: rest =>
    if isWs a ∧ b = '/' ∧ isWs c then
      ' ' :: '/' :: ' ' :: replaceWsSlashWs rest
    else
      a :: replaceWsSlashWs (b :: c :: rest)
  | s => s

/-- Model of `String.prototype.toUpperCase` on the ASCII range (the only
characters the Morse table can hit). -/
def toUpperChar (c : Char) : Char :=
  if 'a' ≤ c ∧ c ≤ 'z' then Char.ofNat (c.toNat - 32) else c

/-- The `MORSE_MAP` object literal of `constants.ts`, as its ordered entry
list (character, code).  The apostrophe and double-quote keys are written
via `Char.ofNat` (39 and 34). -/
def MORSE_MAP : List (Char × List Char) :=
  [('A', ".-".data), ('B', "-...".data), ('C', "-.-.".data), ('D', "-..".data),
   ('E', ".".data), ('F', "..-.".data),
   ('G', "--.".data), ('H', "....".data), ('I', "..".data), ('J', ".---".data),
   ('K', "-.-".data), ('L', ".-..".data),
   ('M', "--".data), ('N', "-.".data), ('O', "---".data), ('P', ".--.".data),
   ('Q', "--.-".data), ('R', ".-.".data),
   ('S', "...".data), ('T', "-".data), ('U', "..-".data), ('V', "...-".data),
   ('W', ".--".data), ('X', "-..-".data),
   ('Y', "-.--".data), ('Z', "--..".data),
   ('1', ".----".data), ('2', "..---".data), ('3', "...--".data),
   ('4', "....-".data), ('5', ".....".data),
   ('6', "-....".data), ('7', "--...".data), ('8', "---..".data),
   ('9', "----.".data), ('0', "-----".data),
   ('.', ".-.-.-".data), (',', "--..--".data), ('?', "..--..".data),
   (Char.ofNat 39, ".----.".data), ('!', "-.-.--".data),
   ('/', "-..-.".data), ('(', "-.--.".data), (')', "-.--.-".data),
   ('&', ".-...".data), (':', "---...".data),
   (';', "-.-.-.".data), ('=', "-...-".data), ('+', ".-.-.".data),
   ('-', "-....-".data), ('_', "..--.-".data),
   (Char.ofNat 34, ".-..-.".data), ('$', "...-..-".data), ('@', ".--.-.".data)]

/-- Property access `MORSE_MAP[char]`: `some code` when the key is present,
`none` (JavaScript `undefined`) otherwise. -/
def morseLookup (c : Char) : Option (List Char) :=
  (MORSE_MAP.find? (fun e => e.1 == c)).map (fun e => e.2)

/-- Property access `REVERSE_MORSE_MAP[code]`.  `REVERSE_MORSE_MAP` is built
in `constants.ts` by a `reduce` that inserts the entries in order with later
entries overwriting earlier ones, so the lookup returns the character of the
last entry whose code matches. -/
def reverseLookup (code : List Char) : Option Char :=
  MORSE_MAP.foldl (fun acc e => if e.2 == code then some e.1 else acc) none

inductive SoundType
  | cw
  | telegraph
deriving DecidableEq, Repr

inductive AlphabetType
  | latin
deriving DecidableEq, Repr

/-- The `AppConfig` interface of `types.ts`. -/
structure AppConfig where
  wpm : ℚ
  farnsworth : ℚ
  pitch : ℚ
  volume : ℚ
  soundType : SoundType
  alphabet : AlphabetType
deriving DecidableEq, Repr

/-- `DEFAULT_CONFIG` of `constants.ts`. -/
def DEFAULT_CONFIG : AppConfig :=
  { wpm := 20, farnsworth := 20, pitch := 550, volume := 80,
    soundType := SoundType.cw, alphabet := AlphabetType.latin }

/-- Per-character step of `textToMorse`: a space becomes the word separator,
any other character goes through `MORSE_MAP[char] || ''`. -/
def encChar (c : Char) : List Char :=
  if c = ' ' then "/".data else (morseLookup c).getD []

/-- `textToMorse` of `morseService.ts`: uppercase, map each character,
join with single spaces, apply the separator-spacing replace, trim. -/
def textToMorse (text : List Char) : List Char :=
  trim (replaceWsSlashWs (joinSep " ".data ((text.map toUpperChar).map encChar)))

/-- Per-code step of `morseToText`: `REVERSE_MORSE_MAP[code] || ''`. -/
def decCode (code : List Char) : List Char :=
  match reverseLookup code with
  | some c => [c]
  | none => []

/-- `morseToText` of `morseService.ts`: trim, split on `/` into words, split
each word on single spaces, map each code back, join characters with nothing
and words with single spaces. -/
def morseToText (morse : List Char) : List Char :=
  joinSep " ".data
    ((splitOnChar '/' (trim morse)).map (fun w =>
      ((splitOnChar ' ' (trim w)).map decCode).flatten))

-- Timing constants of morseService.ts (in units).
def DOT_UNITS : ℚ := 1
def DASH_UNITS : ℚ := 3
def INTRA_CHAR_GAP : ℚ := 1
def INTER_CHAR_GAP : ℚ := 3
def WORD_GAP : ℚ := 7

inductive EventType
  | on
  | off
deriving DecidableEq, Repr

/-- The `MorseEvent` interface.  `generateTimingSequence` never sets
`charIndex`, so every event it produces carries `none`. -/
structure MorseEvent where
  type : EventType
  duration : ℚ
  charIndex : Option Nat := none
deriving DecidableEq, Repr

/-- Duration of one signal: `sig === '-' ? DASH_UNITS * unitMs :
DOT_UNITS * unitMs`. -/
def sigDuration (unitMs : ℚ) (sig : Char) : ℚ :=
  if sig = '-' then DASH_UNITS * unitMs else DOT_UNITS * unitMs

/-- The `signals.forEach` loop: an `on` event per symbol, an intra-character
gap after every symbol but the last. -/
def signalEvents (unitMs : ℚ) : List Char → List MorseEvent
  | [] => []
  | [s] => [{ type := EventType.on, duration := sigDuration unitMs s }]
  | s :: s' :: rest =>
    { type := EventType.on, duration := sigDuration unitMs s } ::
    { type := EventType.off, duration := INTRA_CHAR_GAP * unitMs } ::
    signalEvents unitMs (s' :: rest)

/-- The `chars.forEach` loop: an empty token is skipped entirely (`if
(!char) return` fires before the gap push); a non-empty token emits its
signal events and, when it is not the last token, an inter-character gap. -/
def charsEvents (unitMs farnsworthUnitMs : ℚ) : List (List Char) → List MorseEvent
  | [] => []
  | [c] => if c = [] then [] else signalEvents unitMs c
  | c :: c' :: rest =>
    (if c = [] then [] else
      signalEvents unitMs c ++
      [{ type := EventType.off, duration := INTER_CHAR_GAP * farnsworthUnitMs }]) ++
    charsEvents unitMs farnsworthUnitMs (c' :: rest)

/-- The `words.forEach` loop: each word is trimmed and split on spaces, and
a word gap follows every word but the last (unconditionally, even for empty
words). -/
def wordsEvents (unitMs farnsworthUnitMs : ℚ) : List (List Char) → List MorseEvent
  | [] => []
  | [w] => charsEvents unitMs farnsworthUnitMs (splitOnChar ' ' (trim w))
  | w :: w' :: rest =>
    charsEvents unitMs farnsworthUnitMs (splitOnChar ' ' (trim w)) ++
    { type := EventType.off, duration := WORD_GAP * farnsworthUnitMs } ::
    wordsEvents unitMs farnsworthUnitMs (w' :: rest)

/-- `generateTimingSequence` of `morseService.ts`.  `unitMs = 1200 / wpm`;
the spacing unit switches to `1200 / farnsworth` exactly when
`farnsworth < wpm && farnsworth > 0`.  (In `ℚ`, `1200 / 0 = 0`; JavaScript
produces `Infinity` there — the function has no guard either way.) -/
def generateTimingSequence (morse : List Char) (config : AppConfig) : List MorseEvent :=
  let unitMs : ℚ := 1200 / config.wpm
  let farnsworthUnitMs : ℚ :=
    if config.farnsworth < config.wpm ∧ 0 < config.farnsworth
    then 1200 / config.farnsworth else unitMs
  wordsEvents unitMs farnsworthUnitMs (splitOnChar '/' morse)

/-- The relevant fields of a Web Audio `AudioBuffer`: channel count, sample
rate, frame count, and the per-channel float data. -/
structure AudioBuffer where
  numberOfChannels : Nat
  sampleRate : Nat
  length : Nat
  channelData : List (List ℚ)
deriving Repr

/-- JavaScript `|0` on a finite number in int32 range: truncation toward
zero.  (Every value it is applied to in `bufferToWav` lies in
`[-32768, 32767]`, so the int32 wrap of `|0` is the identity and is not
modelled.) -/
def jsTrunc (q : ℚ) : Int :=
  if 0 ≤ q then ⌊q⌋ else ⌈q⌉

/-- `Math.max(-1, Math.min(1, x))`. -/
def jsClamp (x : ℚ) : ℚ := max (-1) (min 1 x)

/-- The two sample-conversion lines of `bufferToWav`:
`sample = Math.max(-1, Math.min(1, s))` followed by
`sample = (0.5 + sample < 0 ? sample * 32768 : sample * 32767)|0`.
JavaScript operator precedence makes the condition `(0.5 + sample) < 0`,
i.e. `sample < -0.5`. -/
def sampleTo16 (x : ℚ) : Int :=
  let s := jsClamp x
  jsTrunc (if (1 : ℚ)/2 + s < 0 then s * 32768 else s * 32767)

/-- Modelled from the spec (§4.4 "Sample conversion"), for comparison with
`sampleTo16`: clamp, then multiply negatives by 32768 and non-negatives by
32767, truncating toward zero. -/
def specSampleTo16 (x : ℚ) : Int :=
  let s := jsClamp x
  jsTrunc (if s < 0 then s * 32768 else s * 32767)

/-- `view.setUint16(pos, n, true)`: the two little-endian bytes of
`n mod 2^16`. -/
def u16Bytes (n : Nat) : List Nat :=
  [n % 256, n / 256 % 256]

/-- `view.setUint32(pos, n, true)`: the four little-endian bytes of
`n mod 2^32`. -/
def u32Bytes (n : Nat) : List Nat :=
  [n % 256, n / 256 % 256, n / 2 ^ 16 % 256, n / 2 ^ 24 % 256]

/-- `view.setInt16(pos, v, true)` for `v` in int16 range: the little-endian
bytes of the two's-complement representation. -/
def i16Bytes (v : Int) : List Nat :=
  u16Bytes ((v % 65536).toNat)

/-- `channels[i][pos]` (the source only reads in bounds for a well-formed
buffer; out-of-range reads are modelled as `0`). -/
def channelSample (abuffer : AudioBuffer) (i pos : Nat) : ℚ :=
  (abuffer.channelData.getD i []).getD pos 0

/-- The `while(pos < abuffer.length)` loop of `bufferToWav`: for each frame,
for each channel, the two little-endian bytes of the converted sample. -/
def wavData (abuffer : AudioBuffer) : List Nat :=
  ((List.range abuffer.length).map (fun pos =>
    ((List.range abuffer.numberOfChannels).map (fun i =>
      i16Bytes (sampleTo16 (channelSample abuffer i pos)))).flatten)).flatten

/-- `bufferToWav` of `morseService.ts`, as the byte list of the produced
blob: 44 header bytes followed by the interleaved 16-bit samples.  The
header writes happen at `pos` 0,4,8,...,40 in order, so they concatenate;
the data-chunk length field is written when `pos = 40`, giving
`length - 40 - 4`. -/
def bufferToWav (abuffer : AudioBuffer) : List Nat :=
  let numOfChan := abuffer.numberOfChannels
  let length := abuffer.length * numOfChan * 2 + 44
  u32Bytes 0x46464952 ++
  u32Bytes (length - 8) ++
  u32Bytes 0x45564157 ++
  u32Bytes 0x20746d66 ++
  u32Bytes 16 ++
  u16Bytes 1 ++
  u16Bytes numOfChan ++
  u32Bytes abuffer.sampleRate ++
  u32Bytes (abuffer.sampleRate * 2 * numOfChan) ++
  u16Bytes (numOfChan * 2) ++
  u16Bytes 16 ++
  u32Bytes 0x61746164 ++
  u32Bytes (length - 40 - 4) ++
  wavData abuffer

/-- Little-endian 16-bit read from a byte list (for stating header facts). -/
def readU16 (bs : List Nat) (off : Nat) : Nat :=
  bs.getD off 0 + 256 * bs.getD (off + 1) 0

/-- Little-endian 32-bit read from a byte list (for stating header facts). -/
def readU32 (bs : List Nat) (off : Nat) : Nat :=
  bs.getD off 0 + 256 * bs.getD (off + 1) 0 +
  2 ^ 16 * bs.getD (off + 2) 0 + 2 ^ 24 * bs.getD (off + 3) 0

/-- Characters kept by the codec round trip: the space plus the characters
that have a `MORSE_MAP` entry. -/
def keepChar (c : Char) : Bool :=
  c == ' ' || (morseLookup c).isSome

/-- The per-word decoding step of `morseToText` without the inner `trim`:
split on single spaces, decode each token, concatenate. -/
def decodeTokens (w : List Char) : List Char :=
  ((splitOnChar ' ' w).map decCode).flatten

/-- Every whitespace character occurring in the string is the plain space
(true of every string the codec pipeline builds internally). -/
def onlySpace (s : List Char) : Prop :=
  ∀ c ∈ s, isWs c → c = ' '

/-- Apply a function to the last piece of a split. -/
def modLast (f : List Char → List Char) : List (List Char) → List (List Char)
  | [] => []
  | [w] => [f w]
  | w :: w' :: ws => w :: modLast f (w' :: ws)

/-- The signal characters of a code string, in emission order: the
characters of the word tokens, exactly as the nested loops of
`generateTimingSequence` visit them. -/
def signalChars (morse : List Char) : List Char :=
  ((splitOnChar '/' morse).map (fun w => (splitOnChar ' ' (trim w)).flatten)).flatten

/-- Relation between corresponding events generated with spacing unit `fu`
(left list) and spacing unit `u` (right list): `on` events and
intra-character gaps agree, inter-character and word gaps are rescaled from
`u` to `fu` and become strictly longer. -/
def gapRel (u fu : ℚ) (a b : MorseEvent) : Prop :=
  a.type = b.type ∧ a.charIndex = b.charIndex ∧
  (b.type = EventType.on → a.duration = b.duration) ∧
  (b.type = EventType.off → b.duration = INTRA_CHAR_GAP * u → a.duration = b.duration) ∧
  (b.type = EventType.off → b.duration = INTER_CHAR_GAP * u →
    a.duration = INTER_CHAR_GAP * fu ∧ b.duration < a.duration) ∧
  (b.type = EventType.off → b.duration = WORD_GAP * u →
    a.duration = WORD_GAP * fu ∧ b.duration < a.duration)

/-- A mono 44.1 kHz `AudioBuffer` holding the given samples (the shape the
offline renderer hands to `bufferToWav`). -/
def monoBuffer (samples : List ℚ) : AudioBuffer :=
  { numberOfChannels := 1, sampleRate := 44100,
    length := samples.length, channelData := [samples] }

/-- The header facts claim C6 asserts about the WAV encoding of a mono
44.1 kHz buffer. -/
def wavHeaderOK (samples : List ℚ) : Prop :=
  let out := bufferToWav (monoBuffer samples)
  out.length = 44 + 2 * samples.length ∧
  out.take 4 = [82, 73, 70, 70] ∧
  readU32 out 4 = 36 + 2 * samples.length ∧
  (out.drop 8).take 4 = [87, 65, 86, 69] ∧
  (out.drop 12).take 4 = [102, 109, 116, 32] ∧
  readU32 out 16 = 16 ∧
  readU16 out 20 = 1 ∧
  readU16 out 22 = 1 ∧
  readU32 out 24 = 44100 ∧
  readU32 out 28 = 88200 ∧
  readU16 out 32 = 2 ∧
  readU16 out 34 = 16 ∧
  (out.drop 36).take 4 = [100, 97, 116, 97] ∧
  readU32 out 40 = 2 * samples.length

/-! ## Lemmas about the JavaScript string primitives -/

theorem splitOnChar_ne_nil (sep : Char) (s : List Char) : splitOnChar sep s ≠ [] := by
  cases s with
  | nil => simp [splitOnChar]
  | cons c cs =>
    simp only [splitOnChar]
    rcases h : splitOnChar sep cs with _ | ⟨w, ws⟩
    · simp
    · by_cases hc : c = sep <;> simp [hc]

theorem splitOnChar_cons_sep (sep : Char) (cs : List Char) :
    splitOnChar sep (sep :: cs) = [] :: splitOnChar sep cs := by
  simp only [splitOnChar]
  rcases h : splitOnChar sep cs with _ | ⟨w, ws⟩
  · exact absurd h (splitOnChar_ne_nil sep cs)
  · simp

theorem splitOnChar_cons_of_ne (sep c : Char) (cs : List Char) (hc : c ≠ sep) :
    splitOnChar sep (c :: cs) =
      (c :: (splitOnChar sep cs).headI) :: (splitOnChar sep cs).tail := by
  simp only [splitOnChar]
  rcases h : splitOnChar sep cs with _ | ⟨w, ws⟩
  · exact absurd h (splitOnChar_ne_nil sep cs)
  · simp [hc]

theorem splitOnChar_of_not_mem (sep : Char) (s : List Char) (h : sep ∉ s) :
    splitOnChar sep s = [s] := by
  induction s with
  | nil => simp [splitOnChar]
  | cons c cs ih =>
    have hc : c ≠ sep := fun hcs => h (hcs ▸ List.mem_cons_self c cs)
    have hcs : sep ∉ cs := fun hm => h (List.mem_cons_of_mem c hm)
    rw [splitOnChar_cons_of_ne sep c cs hc, ih hcs]
    simp

theorem sep_not_mem_of_mem_splitOnChar (sep : Char) (s : List Char) :
    ∀ w ∈ splitOnChar sep s, sep ∉ w := by
  induction s with
  | nil => simp [splitOnChar]
  | cons c cs ih =>
    by_cases hc : c = sep
    · subst hc
      rw [splitOnChar_cons_sep]
      intro w hw
      rcases List.mem_cons.mp hw with h | h
      · simp [h]
      · exact ih w h
    · rw [splitOnChar_cons_of_ne sep c cs hc]
      intro w hw
      rcases h : splitOnChar sep cs with _ | ⟨w', ws'⟩
      · exact absurd h (splitOnChar_ne_nil sep cs)
      · rw [h] at hw
        simp only [List.headI, List.tail] at hw
        rcases List.mem_cons.mp hw with h' | h'
        · subst h'
          intro hmem
          rcases List.mem_cons.mp hmem with h'' | h''
          · exact hc h''.symm
          · exact ih w' (h ▸ List.mem_cons_self w' ws') h''
        · exact ih w (h ▸ List.mem_cons_of_mem w' h')

theorem mem_of_mem_splitOnChar (sep : Char) (s : List Char) :
    ∀ w ∈ splitOnChar sep s, ∀ a ∈ w, a ∈ s := by
  induction s with
  | nil =>
    simp [splitOnChar]
  | cons c cs ih =>
    by_cases hc : c = sep
    · subst hc
      rw [splitOnChar_cons_sep]
      intro w hw a ha
      rcases List.mem_cons.mp hw with h | h
      · subst h; simp at ha
      · exact List.mem_cons_of_mem _ (ih w h a ha)
    · rw [splitOnChar_cons_of_ne sep c cs hc]
      intro w hw a ha
      rcases h : splitOnChar sep cs with _ | ⟨w', ws'⟩
      · exact absurd h (splitOnChar_ne_nil sep cs)
      · rw [h] at hw
        simp only [List.headI, List.tail] at hw
        rcases List.mem_cons.mp hw with h' | h'
        · subst h'
          rcases List.mem_cons.mp ha with h'' | h''
          · exact h'' ▸ List.mem_cons_self a cs
          · exact List.mem_cons_of_mem _ (ih w' (h ▸ List.mem_cons_self w' ws') a h'')
        · exact List.mem_cons_of_mem _ (ih w (h ▸ List.mem_cons_of_mem w' h') a ha)

theorem joinSep_splitOnChar (sep : Char) (s : List Char) :
    joinSep [sep] (splitOnChar sep s) = s := by
  induction s with
  | nil => simp [splitOnChar, joinSep]
  | cons c cs ih =>
    by_cases hc : c = sep
    · subst hc
      rw [splitOnChar_cons_sep]
      rcases h : splitOnChar c cs with _ | ⟨w, ws⟩
      · exact absurd h (splitOnChar_ne_nil c cs)
      · rw [h] at ih
        simp [joinSep, ih]
    · rw [splitOnChar_cons_of_ne sep c cs hc]
      rcases h : splitOnChar sep cs with _ | ⟨w, ws⟩
      · exact absurd h (splitOnChar_ne_nil sep cs)
      · rw [h] at ih
        cases ws with
        | nil => simpa [joinSep] using congrArg (c :: ·) ih
        | cons w' ws' =>
          simp only [List.headI, List.tail]
          simp only [joinSep] at ih ⊢
          rw [← ih]
          simp

theorem splitOnChar_sepFree_append (sep : Char) (d z h : List Char) (t : List (List Char))
    (hz : splitOnChar sep z = h :: t) (hd : ∀ c ∈ d, c ≠ sep) :
    splitOnChar sep (d ++ z) = (d ++ h) :: t := by
  induction d with
  | nil => simpa using hz
  | cons c d' ih =>
    have hc : c ≠ sep := hd c (List.mem_cons_self c d')
    have hd' : ∀ x ∈ d', x ≠ sep := fun x hx => hd x (List.mem_cons_of_mem c hx)
    rw [List.cons_append, splitOnChar_cons_of_ne sep c _ hc, ih hd']
    simp

theorem splitOnChar_append_sep (sep : Char) (w : List Char) :
    splitOnChar sep (w ++ [sep]) = splitOnChar sep w ++ [[]] := by
  induction w with
  | nil => simp [splitOnChar_cons_sep, splitOnChar]
  | cons c w' ih =>
    by_cases hc : c = sep
    · subst hc
      rw [List.cons_append, splitOnChar_cons_sep, splitOnChar_cons_sep, ih]
      simp
    · rw [List.cons_append, splitOnChar_cons_of_ne sep c _ hc,
        splitOnChar_cons_of_ne sep c _ hc, ih]
      rcases h : splitOnChar sep w' with _ | ⟨hd, tl⟩
      · exact absurd h (splitOnChar_ne_nil sep w')
      · simp

theorem splitOnChar_append_of_ne (sep c : Char) (w : List Char) (hc : c ≠ sep) :
    splitOnChar sep (w ++ [c]) = modLast (fun p => p ++ [c]) (splitOnChar sep w) := by
  induction w with
  | nil => simp [splitOnChar, splitOnChar_cons_of_ne sep c [] hc, modLast, hc]
  | cons a w' ih =>
    by_cases ha : a = sep
    · subst ha
      rw [List.cons_append, splitOnChar_cons_sep, splitOnChar_cons_sep, ih]
      rcases h : splitOnChar a w' with _ | ⟨hd, tl⟩
      · exact absurd h (splitOnChar_ne_nil a w')
      · simp [modLast]
    · rw [List.cons_append, splitOnChar_cons_of_ne sep a _ ha,
        splitOnChar_cons_of_ne sep a _ ha, ih]
      rcases h : splitOnChar sep w' with _ | ⟨hd, tl⟩
      · exact absurd h (splitOnChar_ne_nil sep w')
      · cases tl with
        | nil => simp [modLast]
        | cons t1 ts => simp [modLast]

theorem map_modLast (g : List Char → List Char) (f : List Char → List Char)
    (hg : ∀ w, g (f w) = g w) :
    ∀ l : List (List Char), (modLast f l).map g = l.map g := by
  intro l
  induction l with
  | nil => rfl
  | cons w ws ih =>
    cases ws with
    | nil => simp [modLast, hg]
    | cons w' ws' => simpa [modLast] using ih

/-! ## Lemmas about trim -/

theorem trimL_cons_of_ws (c : Char) (s : List Char) (h : isWs c) :
    trimL (c :: s) = trimL s := by
  simp [trimL, List.dropWhile_cons, h]

theorem trimL_cons_of_not_ws (c : Char) (s : List Char) (h : ¬ isWs c) :
    trimL (c :: s) = c :: s := by
  simp [trimL, List.dropWhile_cons, h]

theorem trimR_append_of_ws (c : Char) (s : List Char) (h : isWs c) :
    trimR (s ++ [c]) = trimR s := by
  simp [trimR, List.dropWhile_cons, h]

theorem trimR_append_of_not_ws (c : Char) (s : List Char) (h : ¬ isWs c) :
    trimR (s ++ [c]) = s ++ [c] := by
  simp [trimR, List.dropWhile_cons, h]

theorem trimL_eq_nil_of_all_ws (s : List Char) (h : ∀ c ∈ s, isWs c) :
    trimL s = [] := by
  simp only [trimL, List.dropWhile_eq_nil_iff]
  exact h

theorem trim_eq_nil_of_all_ws (s : List Char) (h : ∀ c ∈ s, isWs c) :
    trim s = [] := by
  rw [trim, trimL_eq_nil_of_all_ws s h]
  rfl

theorem mem_of_mem_trimL (s : List Char) (a : Char) (h : a ∈ trimL s) : a ∈ s := by
  induction s with
  | nil => simp [trimL] at h
  | cons c cs ih =>
    by_cases hc : isWs c
    · rw [trimL_cons_of_ws c cs hc] at h
      exact List.mem_cons_of_mem c (ih h)
    · rwa [trimL_cons_of_not_ws c cs hc] at h

theorem mem_of_mem_trimR (s : List Char) (a : Char) (h : a ∈ trimR s) : a ∈ s := by
  simp only [trimR, List.mem_reverse] at h
  have h2 := (List.dropWhile_sublist (l := s.reverse) (p := isWs)).mem h
  simp at h2
  exact h2

theorem mem_of_mem_trim (s : List Char) (a : Char) (h : a ∈ trim s) : a ∈ s :=
  mem_of_mem_trimL s a (mem_of_mem_trimR (trimL s) a h)

theorem onlySpace_trimL (s : List Char) (h : onlySpace s) : onlySpace (trimL s) :=
  fun c hc => h c (mem_of_mem_trimL s c hc)

theorem onlySpace_trimR (s : List Char) (h : onlySpace s) : onlySpace (trimR s) :=
  fun c hc => h c (mem_of_mem_trimR s c hc)

/-! ## Lemmas about the per-word decoding step -/

theorem decCode_nil : decCode [] = [] := by decide

theorem decodeTokens_cons_space (w : List Char) :
    decodeTokens (' ' :: w) = decodeTokens w := by
  simp [decodeTokens, splitOnChar_cons_sep, decCode_nil]

theorem decodeTokens_append_space (w : List Char) :
    decodeTokens (w ++ [' ']) = decodeTokens w := by
  simp [decodeTokens, splitOnChar_append_sep, decCode_nil]

theorem decodeTokens_trimL (w : List Char) (h : onlySpace w) :
    decodeTokens (trimL w) = decodeTokens w := by
  induction w with
  | nil => rfl
  | cons c w' ih =>
    by_cases hc : isWs c
    · have hsp : c = ' ' := h c (List.mem_cons_self c w') hc
      subst hsp
      rw [trimL_cons_of_ws ' ' w' hc, decodeTokens_cons_space,
        ih (fun a ha => h a (List.mem_cons_of_mem ' ' ha))]
    · rw [trimL_cons_of_not_ws c w' hc]

theorem decodeTokens_trimR (w : List Char) (h : onlySpace w) :
    decodeTokens (trimR w) = decodeTokens w := by
  induction w using List.reverseRecOn with
  | nil => rfl
  | append_singleton y c ih =>
    by_cases hc : isWs c
    · have hsp : c = ' ' := h c (List.mem_append_right y (List.mem_singleton_self c)) hc
      subst hsp
      rw [trimR_append_of_ws ' ' y hc, decodeTokens_append_space,
        ih (fun a ha => h a (List.mem_append_left _ ha))]
    · rw [trimR_append_of_not_ws c y hc]

theorem decodeTokens_trim (w : List Char) (h : onlySpace w) :
    decodeTokens (trim w) = decodeTokens w := by
  rw [trim, decodeTokens_trimR (trimL w) (onlySpace_trimL w h), decodeTokens_trimL w h]

/-! ## Trim invariance of the word-level decode -/

theorem map_decodeTokens_trimL (X : List Char) (h : onlySpace X) :
    (splitOnChar '/' (trimL X)).map decodeTokens =
      (splitOnChar '/' X).map decodeTokens := by
  induction X with
  | nil => rfl
  | cons c X' ih =>
    by_cases hc : isWs c
    · have hsp : c = ' ' := h c (List.mem_cons_self c X') hc
      subst hsp
      rw [trimL_cons_of_ws ' ' X' hc,
        splitOnChar_cons_of_ne '/' ' ' X' (by decide),
        ih (fun a ha => h a (List.mem_cons_of_mem ' ' ha))]
      rcases hs : splitOnChar '/' X' with _ | ⟨hd, tl⟩
      · exact absurd hs (splitOnChar_ne_nil '/' X')
      · simp [decodeTokens_cons_space]
    · rw [trimL_cons_of_not_ws c X' hc]

theorem map_decodeTokens_trimR (X : List Char) (h : onlySpace X) :
    (splitOnChar '/' (trimR X)).map decodeTokens =
      (splitOnChar '/' X).map decodeTokens := by
  induction X using List.reverseRecOn with
  | nil => rfl
  | append_singleton y c ih =>
    by_cases hc : isWs c
    · have hsp : c = ' ' := h c (List.mem_append_right y (List.mem_singleton_self c)) hc
      subst hsp
      rw [trimR_append_of_ws ' ' y hc,
        splitOnChar_append_of_ne '/' ' ' y (by decide),
        map_modLast decodeTokens (fun p => p ++ [' ']) decodeTokens_append_space,
        ih (fun a ha => h a (List.mem_append_left _ ha))]
    · rw [trimR_append_of_not_ws c y hc]

theorem map_decodeTokens_trim (X : List Char) (h : onlySpace X) :
    (splitOnChar '/' (trim X)).map decodeTokens =
      (splitOnChar '/' X).map decodeTokens := by
  rw [trim, map_decodeTokens_trimR (trimL X) (onlySpace_trimL X h),
    map_decodeTokens_trimL X h]

/-! ## Facts about the code table -/

theorem morse_codes_wf :
    ∀ p ∈ MORSE_MAP, p.2 ≠ [] ∧ ∀ ch ∈ p.2, ch = '.' ∨ ch = '-' := by decide

theorem morse_reverse : ∀ p ∈ MORSE_MAP, reverseLookup p.2 = some p.1 := by decide

theorem mem_of_morseLookup (c : Char) (d : List Char) (h : morseLookup c = some d) :
    (c, d) ∈ MORSE_MAP := by
  simp only [morseLookup, Option.map_eq_some'] at h
  obtain ⟨e, he, hd⟩ := h
  have hmem := List.mem_of_find?_eq_some he
  have hpred := List.find?_some he
  have hc : e.1 = c := by simpa using hpred
  have : (c, d) = e := by
    cases e
    simp only [Prod.mk.injEq]
    exact ⟨hc.symm, hd.symm⟩
  rwa [this]

theorem decCode_of_code (c : Char) (d : List Char) (h : morseLookup c = some d) :
    decCode d = [c] := by
  have hrev := morse_reverse (c, d) (mem_of_morseLookup c d h)
  simp only [decCode, hrev]

theorem code_chars (c : Char) (d : List Char) (h : morseLookup c = some d) :
    d ≠ [] ∧ ∀ ch ∈ d, ch = '.' ∨ ch = '-' :=
  morse_codes_wf (c, d) (mem_of_morseLookup c d h)

/-! ## The main encode/split correspondence -/

theorem decodeTokens_nil : decodeTokens [] = [] := by decide

theorem decodeTokens_sepFree_append (d h : List Char) (hd : ∀ x ∈ d, x ≠ ' ') :
    decodeTokens (d ++ ' ' :: h) = decCode d ++ decodeTokens h := by
  have hs : splitOnChar ' ' (' ' :: h) = [] :: splitOnChar ' ' h :=
    splitOnChar_cons_sep ' ' h
  have := splitOnChar_sepFree_append ' ' d (' ' :: h) [] (splitOnChar ' ' h) hs hd
  simp only [decodeTokens, this, List.map_cons, List.flatten_cons, List.append_nil]

theorem joinSep_cons₂ (sep w w1 : List Char) (ws : List (List Char)) :
    joinSep sep (w :: w1 :: ws) = w ++ sep ++ joinSep sep (w1 :: ws) := rfl

theorem map_decodeTokens_splitSlash (u : List Char) :
    (splitOnChar '/' (joinSep " ".data (u.map encChar))).map decodeTokens =
      splitOnChar ' ' (u.filter keepChar) := by
  induction u with
  | nil => decide
  | cons c u' ih =>
    cases u' with
    | nil =>
      by_cases hc : c = ' '
      · subst hc; decide
      · rcases hl : morseLookup c with _ | d
        · have hk : keepChar c = false := by simp [keepChar, hl, hc]
          have henc : encChar c = [] := by simp [encChar, if_neg hc, hl]
          have hf : List.filter keepChar [c] = [] := by simp [List.filter_cons, hk]
          have hJ : joinSep " ".data (List.map encChar [c]) = [] := by
            simp [joinSep, henc]
          rw [hJ, hf]
          decide
        · have hk : keepChar c = true := by simp [keepChar, hl]
          have hcode := code_chars c d hl
          have hslash : '/' ∉ d := by
            intro hmem
            rcases hcode.2 '/' hmem with h | h <;> exact absurd h (by decide)
          have hspace : ' ' ∉ d := by
            intro hmem
            rcases hcode.2 ' ' hmem with h | h <;> exact absurd h (by decide)
          have henc : encChar c = d := by simp [encChar, if_neg hc, hl]
          have hJ : joinSep " ".data (List.map encChar [c]) = d := by
            simp [joinSep, henc]
          have hf : List.filter keepChar [c] = [c] := by simp [List.filter_cons, hk]
          rw [hJ, hf, splitOnChar_of_not_mem '/' d hslash,
            splitOnChar_of_not_mem ' ' [c] (by simp [Ne.symm hc]), List.map_singleton]
          have hdt : decodeTokens d = decCode d := by
            simp [decodeTokens, splitOnChar_of_not_mem ' ' d hspace]
          rw [hdt, decCode_of_code c d hl]
    | cons c' u'' =>
      rcases hsplit : splitOnChar '/' (joinSep " ".data (List.map encChar (c' :: u'')))
        with _ | ⟨h, t⟩
      · exact absurd hsplit (splitOnChar_ne_nil _ _)
      · rcases hsplit' : splitOnChar ' ' (List.filter keepChar (c' :: u''))
          with _ | ⟨h', t'⟩
        · exact absurd hsplit' (splitOnChar_ne_nil _ _)
        · rw [hsplit, hsplit'] at ih
          simp only [List.map_cons] at ih
          have dt_h : decodeTokens h = h' := (List.cons.injEq _ _ _ _ ▸ ih).1
          have map_t : t.map decodeTokens = t' := (List.cons.injEq _ _ _ _ ▸ ih).2
          have hJ : joinSep " ".data (List.map encChar (c :: c' :: u'')) =
              encChar c ++ ' ' :: joinSep " ".data (List.map encChar (c' :: u'')) := by
            simp only [List.map_cons, joinSep_cons₂, List.append_assoc]
            rfl
          rw [hJ]
          have hsp : splitOnChar '/'
              (' ' :: joinSep " ".data (List.map encChar (c' :: u'')))
              = (' ' :: h) :: t := by
            rw [splitOnChar_cons_of_ne '/' ' ' _ (by decide), hsplit]
            rfl
          by_cases hc : c = ' '
          · subst hc
            have h1 : encChar ' ' ++ ' ' :: joinSep " ".data
                (List.map encChar (c' :: u''))
                = '/' :: ' ' :: joinSep " ".data (List.map encChar (c' :: u'')) := rfl
            have hf : List.filter keepChar (' ' :: c' :: u'')
                = ' ' :: List.filter keepChar (c' :: u'') := by
              simp [List.filter_cons, keepChar]
            rw [h1, splitOnChar_cons_sep, hsp, hf, splitOnChar_cons_sep, hsplit']
            simp only [List.map_cons, decodeTokens_nil, decodeTokens_cons_space,
              dt_h, map_t]
          · rcases hl : morseLookup c with _ | d
            · have hk : keepChar c = false := by simp [keepChar, hl, hc]
              have henc : encChar c = [] := by simp [encChar, if_neg hc, hl]
              have hf : List.filter keepChar (c :: c' :: u'')
                  = List.filter keepChar (c' :: u'') := by
                simp [List.filter_cons, hk]
              rw [henc, List.nil_append, hsp, hf, hsplit']
              simp only [List.map_cons, decodeTokens_cons_space, dt_h, map_t]
            · have hk : keepChar c = true := by simp [keepChar, hl]
              have hcode := code_chars c d hl
              have hslash : ∀ x ∈ d, x ≠ '/' := by
                intro x hx
                rcases hcode.2 x hx with h1 | h1 <;> (subst h1; decide)
              have hspace : ∀ x ∈ d, x ≠ ' ' := by
                intro x hx
                rcases hcode.2 x hx with h1 | h1 <;> (subst h1; decide)
              have henc : encChar c = d := by simp [encChar, if_neg hc, hl]
              have hf : List.filter keepChar (c :: c' :: u'')
                  = c :: List.filter keepChar (c' :: u'') := by
                simp [List.filter_cons, hk]
              rw [henc,
                splitOnChar_sepFree_append '/' d _ (' ' :: h) t hsp hslash,
                hf, splitOnChar_cons_of_ne ' ' c _ hc, hsplit']
              simp only [List.map_cons, List.headI, List.tail]
              rw [decodeTokens_sepFree_append d h hspace, decCode_of_code c d hl,
                dt_h, map_t]
              simp

/-! ## The separator-spacing replace is the identity on the encoder output -/

theorem mem_joinSep (sep : List Char) (l : List (List Char)) (a : Char)
    (h : a ∈ joinSep sep l) : a ∈ sep ∨ ∃ w ∈ l, a ∈ w := by
  induction l with
  | nil => simp [joinSep] at h
  | cons w ws ih =>
    cases ws with
    | nil =>
      right
      exact ⟨w, List.mem_cons_self w [], by simpa [joinSep] using h⟩
    | cons w' ws' =>
      rw [joinSep_cons₂, List.mem_append, List.mem_append] at h
      rcases h with (h | h) | h
      · exact Or.inr ⟨w, List.mem_cons_self w _, h⟩
      · exact Or.inl h
      · rcases ih h with h1 | ⟨v, hv, ha⟩
        · exact Or.inl h1
        · exact Or.inr ⟨v, List.mem_cons_of_mem w hv, ha⟩

theorem encChar_chars (c a : Char) (h : a ∈ encChar c) :
    a = '/' ∨ a = '.' ∨ a = '-' := by
  by_cases hc : c = ' '
  · subst hc
    simp only [encChar, if_pos rfl] at h
    left
    simpa using h
  · rcases hl : morseLookup c with _ | d
    · simp [encChar, if_neg hc, hl] at h
    · simp only [encChar, if_neg hc, hl, Option.getD_some] at h
      exact Or.inr ((code_chars c d hl).2 a h)

theorem onlySpace_encJoin (u : List Char) :
    onlySpace (joinSep " ".data (u.map encChar)) := by
  intro a ha hws
  rcases mem_joinSep " ".data (u.map encChar) a ha with h | ⟨w, hw, haw⟩
  · simpa using h
  · obtain ⟨c, _, rfl⟩ := List.mem_map.mp hw
    rcases encChar_chars c a haw with h | h | h <;> subst h <;>
      simp [isWs] at hws

theorem replaceWsSlashWs_eq_self (s : List Char) (h : onlySpace s) :
    replaceWsSlashWs s = s := by
  induction s using replaceWsSlashWs.induct with
  | case1 a b c rest hcond ih =>
    obtain ⟨hwa, hb, hwc⟩ := hcond
    have ha : a = ' ' := h a (by simp) hwa
    have hc : c = ' ' := h c (by simp) hwc
    have hrest : onlySpace rest := fun x hx hwx =>
      h x (by simp [hx]) hwx
    rw [replaceWsSlashWs, if_pos ⟨hwa, hb, hwc⟩, ih hrest, ha, hb, hc]
  | case2 a b c rest hcond ih =>
    have htail : onlySpace (b :: c :: rest) := fun x hx hwx =>
      h x (by simp at hx; rcases hx with h1 | h1 | h1 <;> simp [h1]) hwx
    rw [replaceWsSlashWs, if_neg hcond, ih htail]
  | case3 s hs =>
    rcases s with _ | ⟨a, _ | ⟨b, _ | ⟨c, rest⟩⟩⟩
    · rfl
    · rfl
    · rfl
    · exact absurd rfl (hs a b c rest)

/-! ## The codec round trip -/

theorem textToMorse_eq_trim_join (t : List Char) :
    textToMorse t = trim (joinSep " ".data ((t.map toUpperChar).map encChar)) := by
  rw [textToMorse, replaceWsSlashWs_eq_self _ (onlySpace_encJoin (t.map toUpperChar))]

theorem morseToText_eq_map_decodeTokens (m : List Char) :
    morseToText m =
      joinSep " ".data ((splitOnChar '/' (trim m)).map (fun w => decodeTokens (trim w))) := rfl

theorem onlySpace_of_sub (s s' : List Char) (hsub : ∀ a ∈ s', a ∈ s)
    (h : onlySpace s) : onlySpace s' :=
  fun a ha hwa => h a (hsub a ha) hwa

theorem roundTrip_aux (u : List Char) :
    morseToText (trim (joinSep " ".data (u.map encChar))) = u.filter keepChar := by
  set J := joinSep " ".data (u.map encChar) with hJ
  have hos : onlySpace J := onlySpace_encJoin u
  have hosT : onlySpace (trim J) :=
    onlySpace_of_sub J (trim J) (fun a ha => mem_of_mem_trim J a ha) hos
  have hosTT : onlySpace (trim (trim J)) :=
    onlySpace_of_sub (trim J) (trim (trim J))
      (fun a ha => mem_of_mem_trim (trim J) a ha) hosT
  rw [morseToText_eq_map_decodeTokens]
  have hcong : (splitOnChar '/' (trim (trim J))).map (fun w => decodeTokens (trim w))
      = (splitOnChar '/' (trim (trim J))).map decodeTokens := by
    apply List.map_congr_left
    intro w hw
    exact decodeTokens_trim w
      (onlySpace_of_sub (trim (trim J)) w
        (fun a ha => mem_of_mem_splitOnChar '/' (trim (trim J)) w hw a ha) hosTT)
  rw [hcong, map_decodeTokens_trim (trim J) hosT, map_decodeTokens_trim J hos,
    map_decodeTokens_splitSlash u, joinSep_splitOnChar]

/-! ## Trim fixed points -/

theorem trimR_cons_struct (c : Char) (s : List Char) (hc : ¬ isWs c) :
    ∃ r, trimR (c :: s) = c :: r := by
  simp only [trimR, List.reverse_cons, List.dropWhile_append]
  by_cases h : (List.dropWhile isWs s.reverse).isEmpty
  · refine ⟨[], ?_⟩
    simp [h, List.dropWhile_cons, hc]
  · refine ⟨(List.dropWhile isWs s.reverse).reverse, ?_⟩
    simp [h]

theorem trimL_trimL (s : List Char) : trimL (trimL s) = trimL s :=
  List.dropWhile_idempotent isWs s

theorem trimR_trimR (s : List Char) : trimR (trimR s) = trimR s := by
  simp [trimR, List.dropWhile_idempotent]

theorem trimL_trimR_of_fixed (v : List Char) (h : trimL v = v) :
    trimL (trimR v) = trimR v := by
  cases v with
  | nil => rfl
  | cons c v' =>
    have hc : ¬ isWs c := by
      intro hws
      rw [trimL_cons_of_ws c v' hws] at h
      have hlen := (List.dropWhile_sublist (p := isWs) (l := v')).length_le
      have hcongr := congrArg List.length h
      rw [trimL] at hcongr
      simp at hcongr
      omega
    obtain ⟨r, hr⟩ := trimR_cons_struct c v' hc
    rw [hr, trimL_cons_of_not_ws c r hc]

theorem trimR_trim (s : List Char) : trimR (trim s) = trim s := by
  rw [trim, trimR_trimR]

theorem trimL_trim (s : List Char) : trimL (trim s) = trim s :=
  trimL_trimR_of_fixed (trimL s) (trimL_trimL s)

/-! ## The reverse-map lookup as a fold -/

theorem foldl_lookup_eq_none (code : List Char) (l : List (Char × List Char)) :
    ∀ acc : Option Char,
      (l.foldl (fun acc e => if e.2 == code then some e.1 else acc) acc = none ↔
        acc = none ∧ ∀ p ∈ l, p.2 ≠ code) := by
  induction l with
  | nil => simp
  | cons e l ih =>
    intro acc
    rw [List.foldl_cons, ih]
    by_cases he : e.2 = code
    · simp only [he, beq_self_eq_true, if_true]
      simp only [List.forall_mem_cons]
      constructor
      · rintro ⟨h1, -⟩
        exact absurd h1 (by simp)
      · rintro ⟨-, h2, -⟩
        exact absurd he h2
    · have : (e.2 == code) = false := by simp [he]
      simp only [this, Bool.false_eq_true, if_false, List.forall_mem_cons]
      constructor
      · rintro ⟨h1, h2⟩
        exact ⟨h1, he, h2⟩
      · rintro ⟨h1, -, h2⟩
        exact ⟨h1, h2⟩

/-! ## Claim theorems: codec -/

/-- Claim C4: for every input text, `morseToText (textToMorse text)` equals
`text` uppercased with every character outside the Morse table's domain
(the mapped characters plus the space) removed. -/
theorem claim4_roundTrip (text : List Char) :
    morseToText (textToMorse text) = (text.map toUpperChar).filter keepChar := by
  rw [textToMorse_eq_trim_join, roundTrip_aux]

/-- Concrete instance of claim C4 at the text `"Hello, World! 123"`. -/
theorem claim4_witness :
    morseToText (textToMorse "Hello, World! 123".data) = "HELLO, WORLD! 123".data := by
  rw [claim4_roundTrip "Hello, World! 123".data]
  decide

/-- Claim C9: the character-to-code table is a bijection over its domain:
no two distinct characters share a code, every `(char, code)` entry is
reversed by `REVERSE_MORSE_MAP`, and looking up an undefined character or
code yields `none` (JavaScript `undefined`), never an error. -/
theorem claim9_bijection :
    (∀ p ∈ MORSE_MAP, ∀ q ∈ MORSE_MAP, p.2 = q.2 → p.1 = q.1) ∧
    (∀ p ∈ MORSE_MAP, reverseLookup p.2 = some p.1) ∧
    (∀ c : Char, morseLookup c = none ↔ ∀ p ∈ MORSE_MAP, p.1 ≠ c) ∧
    (∀ code : List Char, reverseLookup code = none ↔ ∀ p ∈ MORSE_MAP, p.2 ≠ code) := by
  refine ⟨by decide, by decide, ?_, ?_⟩
  · intro c
    simp only [morseLookup, Option.map_eq_none', List.find?_eq_none, beq_iff_eq]
  · intro code
    rw [reverseLookup, foldl_lookup_eq_none code MORSE_MAP none]
    simp

/-- Concrete instances of claim C9: `'A' ↔ ".-"` is reversed, and the
unmapped character `'#'` and unmapped code `"........"` give `none`. -/
theorem claim9_witness :
    reverseLookup ".-".data = some 'A' ∧
    morseLookup '#' = none ∧ reverseLookup "........".data = none := by
  refine ⟨claim9_bijection.2.1 ('A', ".-".data) (by decide), ?_, ?_⟩
  · exact (claim9_bijection.2.2.1 '#').mpr (by decide)
  · exact (claim9_bijection.2.2.2 "........".data).mpr (by decide)

/-! ## Claim theorems: timing edge cases -/

theorem charsEvents_of_all_ws (u fu : ℚ) (w : List Char) (h : ∀ c ∈ w, isWs c) :
    charsEvents u fu (splitOnChar ' ' (trim w)) = [] := by
  rw [trim_eq_nil_of_all_ws w h]
  rfl

theorem wordsEvents_all_gaps (u fu : ℚ) (ws : List (List Char))
    (h : ∀ w ∈ ws, charsEvents u fu (splitOnChar ' ' (trim w)) = []) :
    ∀ e ∈ wordsEvents u fu ws,
      e.type = EventType.off ∧ e.duration = WORD_GAP * fu := by
  induction ws with
  | nil => simp [wordsEvents]
  | cons w ws' ih =>
    cases ws' with
    | nil =>
      intro e he
      rw [wordsEvents, h w (List.mem_cons_self w [])] at he
      simp at he
    | cons w' ws'' =>
      intro e he
      rw [wordsEvents, h w (List.mem_cons_self w _)] at he
      simp only [List.nil_append, List.mem_cons] at he
      rcases he with he | he
      · subst he
        exact ⟨rfl, rfl⟩
      · exact ih (fun v hv => h v (List.mem_cons_of_mem w hv)) e he

/-- Claim C1 (amended): the empty code string and whitespace-only code
strings produce the empty event sequence; a code string made of separators
and spaces produces a sequence containing only `off` word-gap events (one
per separator), not the empty sequence. -/
theorem claim1_amended :
    (∀ cfg : AppConfig, generateTimingSequence [] cfg = []) ∧
    (∀ (cfg : AppConfig) (s : List Char), (∀ c ∈ s, isWs c) →
      generateTimingSequence s cfg = []) ∧
    (∀ (cfg : AppConfig) (s : List Char), (∀ c ∈ s, c = '/' ∨ c = ' ') →
      ∀ e ∈ generateTimingSequence s cfg,
        e.type = EventType.off ∧
        e.duration = WORD_GAP *
          (if cfg.farnsworth < cfg.wpm ∧ 0 < cfg.farnsworth
           then 1200 / cfg.farnsworth else 1200 / cfg.wpm)) := by
  refine ⟨?_, ?_, ?_⟩
  · intro cfg
    rfl
  · intro cfg s h
    have hsl : '/' ∉ s := by
      intro hmem
      have := h '/' hmem
      simp [isWs] at this
    rw [generateTimingSequence, splitOnChar_of_not_mem '/' s hsl]
    exact charsEvents_of_all_ws _ _ s h
  · intro cfg s h
    rw [generateTimingSequence]
    apply wordsEvents_all_gaps
    intro w hw
    apply charsEvents_of_all_ws
    intro c hc
    have hcs := h c (mem_of_mem_splitOnChar '/' s w hw c hc)
    have hns := sep_not_mem_of_mem_splitOnChar '/' s w hw
    rcases hcs with h1 | h1
    · exact absurd (h1 ▸ hc) hns
    · simp [h1, isWs]

/-- Instances of claim C1 (amended) at concrete inputs: a space-only code
string gives the empty sequence, and every event of the sequence for `"/"`
is an `off` word gap. -/
theorem claim1_witness :
    generateTimingSequence " ".data DEFAULT_CONFIG = [] ∧
    (∀ e ∈ generateTimingSequence "/".data DEFAULT_CONFIG,
      e.type = EventType.off ∧
      e.duration = WORD_GAP *
        (if DEFAULT_CONFIG.farnsworth < DEFAULT_CONFIG.wpm ∧ 0 < DEFAULT_CONFIG.farnsworth
         then 1200 / DEFAULT_CONFIG.farnsworth else 1200 / DEFAULT_CONFIG.wpm)) :=
  ⟨claim1_amended.2.1 DEFAULT_CONFIG " ".data (by decide),
   claim1_amended.2.2 DEFAULT_CONFIG "/".data (by decide)⟩

/-- Counterexample to claim C1 as stated: the separator-only code string
`"/"` does not produce the empty sequence — the `words.forEach` loop sees
two empty words and emits the word gap between them (420 ms at the default
20 wpm). -/
theorem claim1_counterexample :
    generateTimingSequence "/".data DEFAULT_CONFIG =
      [{ type := EventType.off, duration := 420 }] ∧
    generateTimingSequence "/".data DEFAULT_CONFIG ≠ [] := by
  have h : generateTimingSequence "/".data DEFAULT_CONFIG =
      [{ type := EventType.off, duration := 420 }] := by
    simp [generateTimingSequence, DEFAULT_CONFIG, splitOnChar, wordsEvents,
      charsEvents, trim, trimL, trimR, WORD_GAP]
    norm_num
  exact ⟨h, by rw [h]; simp⟩

/-- Claim C3: the code has no guard at all on `wpm <= 0` —
`generateTimingSequence` returns ordinary events instead of rejecting the
configuration.  In this `ℚ` model `1200 / 0 = 0`; in JavaScript the same
call produces an `Infinity` duration.  At `wpm = -20` the event carries a
negative duration.  Either way no configuration error is raised, which is
what the claim (and §7 of the spec) requires. -/
theorem claim3_no_guard :
    generateTimingSequence ".".data { DEFAULT_CONFIG with wpm := 0 } =
      [{ type := EventType.on, duration := 1200 / 0 }] ∧
    generateTimingSequence ".".data { DEFAULT_CONFIG with wpm := -20 } =
      [{ type := EventType.on, duration := -60 }] := by
  constructor
  all_goals simp [generateTimingSequence, DEFAULT_CONFIG, splitOnChar, wordsEvents,
    charsEvents, signalEvents, sigDuration, trim, trimL, trimR, DOT_UNITS]
  all_goals norm_num

/-! ## Claim theorems: encoder output shape -/

/-- Counterexample to claim C7 as stated: encoding `"A  B"` (two spaces)
produces `".- / / -..."`, which contains the two consecutive separator
tokens `"/ /"` — the regex replace rewrites `" / "` to itself and collapses
nothing. -/
theorem claim7_counterexample :
    textToMorse "A  B".data = ".- / / -...".data ∧
    ".- / / -...".data = ".- ".data ++ "/ /".data ++ " -...".data := by
  exact ⟨by decide, by decide⟩

/-- Claim C7 (amended): `textToMorse` uppercases, maps each character
(spaces to separator tokens), joins the per-character pieces with single
spaces and trims; the replace step is the identity, so duplicate separators
are not collapsed, and the output carries no leading or trailing
whitespace. -/
theorem claim7_amended (text : List Char) :
    textToMorse text =
      trim (joinSep " ".data ((text.map toUpperChar).map encChar)) ∧
    trimL (textToMorse text) = textToMorse text ∧
    trimR (textToMorse text) = textToMorse text := by
  refine ⟨textToMorse_eq_trim_join text, ?_, ?_⟩
  · rw [textToMorse_eq_trim_join text, trimL_trim]
  · rw [textToMorse_eq_trim_join text, trimR_trim]

/-- Instance of claim C7 (amended) at a concrete text. -/
theorem claim7_witness :
    textToMorse "A B".data =
      trim (joinSep " ".data (("A B".data.map toUpperChar).map encChar)) ∧
    trimL (textToMorse "A B".data) = textToMorse "A B".data ∧
    trimR (textToMorse "A B".data) = textToMorse "A B".data :=
  claim7_amended "A B".data

/-- Claim C8: `textToMorse "SOS" = "... --- ..."`, and at `wpm = 20` (with
`farnsworth` not strictly between 0 and 20) the unit is 60 ms and the
sequence is dots of 60 ms, dashes of 180 ms, intra-character gaps of 60 ms
and inter-character gaps of 180 ms. -/
theorem claim8_sos (cfg : AppConfig) (h1 : cfg.wpm = 20)
    (h2 : ¬ (0 < cfg.farnsworth ∧ cfg.farnsworth < 20)) :
    textToMorse "SOS".data = "... --- ...".data ∧
    (1200 : ℚ) / cfg.wpm = 60 ∧
    generateTimingSequence "... --- ...".data cfg =
      [{ type := EventType.on, duration := 60 }, { type := EventType.off, duration := 60 },
       { type := EventType.on, duration := 60 }, { type := EventType.off, duration := 60 },
       { type := EventType.on, duration := 60 }, { type := EventType.off, duration := 180 },
       { type := EventType.on, duration := 180 }, { type := EventType.off, duration := 60 },
       { type := EventType.on, duration := 180 }, { type := EventType.off, duration := 60 },
       { type := EventType.on, duration := 180 }, { type := EventType.off, duration := 180 },
       { type := EventType.on, duration := 60 }, { type := EventType.off, duration := 60 },
       { type := EventType.on, duration := 60 }, { type := EventType.off, duration := 60 },
       { type := EventType.on, duration := 60 }] := by
  have hu : (1200 : ℚ) / cfg.wpm = 60 := by rw [h1]; norm_num
  refine ⟨by decide, hu, ?_⟩
  have hcond : ¬ (cfg.farnsworth < cfg.wpm ∧ 0 < cfg.farnsworth) := by
    rw [h1]
    intro hcon
    exact h2 ⟨hcon.2, hcon.1⟩
  simp only [generateTimingSequence, if_neg hcond, hu]
  simp [wordsEvents, charsEvents, signalEvents, sigDuration, splitOnChar,
    trim, trimL, trimR, DOT_UNITS, DASH_UNITS, INTRA_CHAR_GAP,
    INTER_CHAR_GAP, WORD_GAP]
  norm_num

/-- Instance of claim C8 at the default configuration. -/
theorem claim8_witness :
    DEFAULT_CONFIG.wpm = 20 ∧
    ¬ (0 < DEFAULT_CONFIG.farnsworth ∧ DEFAULT_CONFIG.farnsworth < 20) ∧
    (textToMorse "SOS".data = "... --- ...".data ∧
     (1200 : ℚ) / DEFAULT_CONFIG.wpm = 60 ∧
     generateTimingSequence "... --- ...".data DEFAULT_CONFIG =
      [{ type := EventType.on, duration := 60 }, { type := EventType.off, duration := 60 },
       { type := EventType.on, duration := 60 }, { type := EventType.off, duration := 60 },
       { type := EventType.on, duration := 60 }, { type := EventType.off, duration := 180 },
       { type := EventType.on, duration := 180 }, { type := EventType.off, duration := 60 },
       { type := EventType.on, duration := 180 }, { type := EventType.off, duration := 60 },
       { type := EventType.on, duration := 180 }, { type := EventType.off, duration := 180 },
       { type := EventType.on, duration := 60 }, { type := EventType.off, duration := 60 },
       { type := EventType.on, duration := 60 }, { type := EventType.off, duration := 60 },
       { type := EventType.on, duration := 60 }]) :=
  ⟨rfl, by norm_num [DEFAULT_CONFIG],
   claim8_sos DEFAULT_CONFIG rfl (by norm_num [DEFAULT_CONFIG])⟩

/-! ## Claim theorems: the Farnsworth relation -/

theorem gapRel_of_on (u fu d : ℚ) :
    gapRel u fu { type := EventType.on, duration := d }
      { type := EventType.on, duration := d } := by
  refine ⟨rfl, rfl, fun _ => rfl, ?_, ?_, ?_⟩ <;>
    · intro h
      exact EventType.noConfusion h

theorem gapRel_of_intra (u fu : ℚ) (hu : 0 < u) :
    gapRel u fu { type := EventType.off, duration := INTRA_CHAR_GAP * u }
      { type := EventType.off, duration := INTRA_CHAR_GAP * u } := by
  refine ⟨rfl, rfl, ?_, ?_, ?_, ?_⟩
  · intro h
    exact EventType.noConfusion h
  · intro _ _
    rfl
  · intro _ hd
    exfalso
    simp only [INTRA_CHAR_GAP, INTER_CHAR_GAP] at hd
    linarith
  · intro _ hd
    exfalso
    simp only [INTRA_CHAR_GAP, WORD_GAP] at hd
    linarith

theorem gapRel_of_inter (u fu : ℚ) (hu : 0 < u) (huf : u < fu) :
    gapRel u fu { type := EventType.off, duration := INTER_CHAR_GAP * fu }
      { type := EventType.off, duration := INTER_CHAR_GAP * u } := by
  refine ⟨rfl, rfl, ?_, ?_, ?_, ?_⟩
  · intro h
    exact EventType.noConfusion h
  · intro _ hd
    exfalso
    simp only [INTRA_CHAR_GAP, INTER_CHAR_GAP] at hd
    linarith
  · intro _ _
    refine ⟨rfl, ?_⟩
    simp only [INTER_CHAR_GAP]
    linarith
  · intro _ hd
    exfalso
    simp only [INTER_CHAR_GAP, WORD_GAP] at hd
    linarith

theorem gapRel_of_word (u fu : ℚ) (hu : 0 < u) (huf : u < fu) :
    gapRel u fu { type := EventType.off, duration := WORD_GAP * fu }
      { type := EventType.off, duration := WORD_GAP * u } := by
  refine ⟨rfl, rfl, ?_, ?_, ?_, ?_⟩
  · intro h
    exact EventType.noConfusion h
  · intro _ hd
    exfalso
    simp only [INTRA_CHAR_GAP, WORD_GAP] at hd
    linarith
  · intro _ hd
    exfalso
    simp only [INTER_CHAR_GAP, WORD_GAP] at hd
    linarith
  · intro _ _
    refine ⟨rfl, ?_⟩
    simp only [WORD_GAP]
    linarith

theorem forall₂_signalEvents (u fu : ℚ) (hu : 0 < u) (sig : List Char) :
    List.Forall₂ (gapRel u fu) (signalEvents u sig) (signalEvents u sig) := by
  induction sig with
  | nil => exact List.Forall₂.nil
  | cons s rest ih =>
    cases rest with
    | nil => exact List.Forall₂.cons (gapRel_of_on u fu _) List.Forall₂.nil
    | cons s' rest' =>
      exact List.Forall₂.cons (gapRel_of_on u fu _)
        (List.Forall₂.cons (gapRel_of_intra u fu hu) ih)

theorem forall₂_charsEvents (u fu : ℚ) (hu : 0 < u) (huf : u < fu)
    (cs : List (List Char)) :
    List.Forall₂ (gapRel u fu) (charsEvents u fu cs) (charsEvents u u cs) := by
  induction cs with
  | nil => exact List.Forall₂.nil
  | cons c cs' ih =>
    cases cs' with
    | nil =>
      simp only [charsEvents]
      by_cases hc : c = []
      · simp only [if_pos hc]
        exact List.Forall₂.nil
      · simp only [if_neg hc]
        exact forall₂_signalEvents u fu hu c
    | cons c' cs'' =>
      simp only [charsEvents]
      by_cases hc : c = []
      · simp only [if_pos hc, List.nil_append]
        exact ih
      · simp only [if_neg hc]
        refine List.rel_append (List.rel_append (forall₂_signalEvents u fu hu c) ?_) ih
        exact List.Forall₂.cons (gapRel_of_inter u fu hu huf) List.Forall₂.nil

theorem forall₂_wordsEvents (u fu : ℚ) (hu : 0 < u) (huf : u < fu)
    (ws : List (List Char)) :
    List.Forall₂ (gapRel u fu) (wordsEvents u fu ws) (wordsEvents u u ws) := by
  induction ws with
  | nil => exact List.Forall₂.nil
  | cons w ws' ih =>
    cases ws' with
    | nil => exact forall₂_charsEvents u fu hu huf _
    | cons w' ws'' =>
      simp only [wordsEvents]
      exact List.rel_append (forall₂_charsEvents u fu hu huf _)
        (List.Forall₂.cons (gapRel_of_word u fu hu huf) ih)

theorem signalEvents_off_dur (u : ℚ) (sig : List Char) :
    ∀ e ∈ signalEvents u sig, e.type = EventType.off →
      e.duration = INTRA_CHAR_GAP * u := by
  induction sig with
  | nil => simp [signalEvents]
  | cons s rest ih =>
    cases rest with
    | nil =>
      intro e he hoff
      simp only [signalEvents, List.mem_singleton] at he
      subst he
      exact EventType.noConfusion hoff
    | cons s' rest' =>
      intro e he hoff
      simp only [signalEvents, List.mem_cons] at he
      rcases he with he | he | he
      · subst he
        exact EventType.noConfusion hoff
      · subst he
        rfl
      · exact ih e he hoff

theorem charsEvents_off_dur (u fu : ℚ) (cs : List (List Char)) :
    ∀ e ∈ charsEvents u fu cs, e.type = EventType.off →
      e.duration = INTRA_CHAR_GAP * u ∨ e.duration = INTER_CHAR_GAP * fu := by
  induction cs with
  | nil => simp [charsEvents]
  | cons c cs' ih =>
    cases cs' with
    | nil =>
      intro e he hoff
      simp only [charsEvents] at he
      by_cases hc : c = []
      · rw [if_pos hc] at he
        simp at he
      · rw [if_neg hc] at he
        exact Or.inl (signalEvents_off_dur u c e he hoff)
    | cons c' cs'' =>
      intro e he hoff
      simp only [charsEvents] at he
      rw [List.mem_append] at he
      rcases he with he | he
      · by_cases hc : c = []
        · rw [if_pos hc] at he
          simp at he
        · rw [if_neg hc, List.mem_append] at he
          rcases he with he | he
          · exact Or.inl (signalEvents_off_dur u c e he hoff)
          · rw [List.mem_singleton] at he
            subst he
            exact Or.inr rfl
      · exact ih e he hoff

theorem wordsEvents_off_dur (u fu : ℚ) (ws : List (List Char)) :
    ∀ e ∈ wordsEvents u fu ws, e.type = EventType.off →
      e.duration = INTRA_CHAR_GAP * u ∨ e.duration = INTER_CHAR_GAP * fu ∨
        e.duration = WORD_GAP * fu := by
  induction ws with
  | nil => simp [wordsEvents]
  | cons w ws' ih =>
    cases ws' with
    | nil =>
      intro e he hoff
      rcases charsEvents_off_dur u fu _ e he hoff with h | h
      · exact Or.inl h
      · exact Or.inr (Or.inl h)
    | cons w' ws'' =>
      intro e he hoff
      simp only [wordsEvents, List.mem_append, List.mem_cons] at he
      rcases he with he | he | he
      · rcases charsEvents_off_dur u fu _ e he hoff with h | h
        · exact Or.inl h
        · exact Or.inr (Or.inl h)
      · subst he
        exact Or.inr (Or.inr rfl)
      · exact ih e he hoff

/-- Claim C5: with `0 < farnsworth < wpm` the inter-character and word gaps
are strictly longer than with `farnsworth = wpm`, while `on` events and
intra-character gaps are unchanged (the paired lists have equal length and
are related pointwise by `gapRel`); every `off` event of the
`farnsworth = wpm` run is a 1, 3 or 7 unit gap; and whenever `farnsworth`
is not strictly between 0 and `wpm`, all gaps use the `wpm` unit. -/
theorem claim5_farnsworth (morse : List Char) (cfg cfg' : AppConfig)
    (h1 : 0 < cfg.farnsworth) (h2 : cfg.farnsworth < cfg.wpm)
    (hw : cfg'.wpm = cfg.wpm) (hf : cfg'.farnsworth = cfg.wpm) :
    List.Forall₂ (gapRel (1200 / cfg.wpm) (1200 / cfg.farnsworth))
      (generateTimingSequence morse cfg) (generateTimingSequence morse cfg') ∧
    (∀ e ∈ generateTimingSequence morse cfg', e.type = EventType.off →
      e.duration = INTRA_CHAR_GAP * (1200 / cfg.wpm) ∨
      e.duration = INTER_CHAR_GAP * (1200 / cfg.wpm) ∨
      e.duration = WORD_GAP * (1200 / cfg.wpm)) ∧
    (∀ cfg'' : AppConfig, ¬ (0 < cfg''.farnsworth ∧ cfg''.farnsworth < cfg''.wpm) →
      generateTimingSequence morse cfg'' =
        wordsEvents (1200 / cfg''.wpm) (1200 / cfg''.wpm) (splitOnChar '/' morse)) := by
  have hwpm : 0 < cfg.wpm := h1.trans h2
  have hu : 0 < 1200 / cfg.wpm := by positivity
  have huf : 1200 / cfg.wpm < 1200 / cfg.farnsworth :=
    div_lt_div_of_pos_left (by norm_num) h1 h2
  have hgts : generateTimingSequence morse cfg =
      wordsEvents (1200 / cfg.wpm) (1200 / cfg.farnsworth) (splitOnChar '/' morse) := by
    simp only [generateTimingSequence, if_pos (And.intro h2 h1)]
  have hgts' : generateTimingSequence morse cfg' =
      wordsEvents (1200 / cfg.wpm) (1200 / cfg.wpm) (splitOnChar '/' morse) := by
    simp only [generateTimingSequence, hw, hf, if_neg (lt_irrefl cfg.wpm ∘ And.left)]
  refine ⟨?_, ?_, ?_⟩
  · rw [hgts, hgts']
    exact forall₂_wordsEvents _ _ hu huf _
  · intro e he hoff
    rw [hgts'] at he
    exact wordsEvents_off_dur _ _ _ e he hoff
  · intro cfg'' h
    have hcond : ¬ (cfg''.farnsworth < cfg''.wpm ∧ 0 < cfg''.farnsworth) :=
      fun hcon => h (And.intro hcon.2 hcon.1)
    simp only [generateTimingSequence, if_neg hcond]

/-- Instance of claim C5 at `morse = ". ."`, `wpm = 20`,
`farnsworth = 10` against the default configuration. -/
theorem claim5_witness :
    List.Forall₂
      (gapRel (1200 / ({ DEFAULT_CONFIG with farnsworth := 10 } : AppConfig).wpm)
        (1200 / ({ DEFAULT_CONFIG with farnsworth := 10 } : AppConfig).farnsworth))
      (generateTimingSequence ". .".data { DEFAULT_CONFIG with farnsworth := 10 })
      (generateTimingSequence ". .".data DEFAULT_CONFIG) ∧
    (∀ e ∈ generateTimingSequence ". .".data DEFAULT_CONFIG,
      e.type = EventType.off →
      e.duration = INTRA_CHAR_GAP *
        (1200 / ({ DEFAULT_CONFIG with farnsworth := 10 } : AppConfig).wpm) ∨
      e.duration = INTER_CHAR_GAP *
        (1200 / ({ DEFAULT_CONFIG with farnsworth := 10 } : AppConfig).wpm) ∨
      e.duration = WORD_GAP *
        (1200 / ({ DEFAULT_CONFIG with farnsworth := 10 } : AppConfig).wpm)) ∧
    (∀ cfg'' : AppConfig, ¬ (0 < cfg''.farnsworth ∧ cfg''.farnsworth < cfg''.wpm) →
      generateTimingSequence ". .".data cfg'' =
        wordsEvents (1200 / cfg''.wpm) (1200 / cfg''.wpm)
          (splitOnChar '/' ". .".data)) :=
  claim5_farnsworth ". .".data { DEFAULT_CONFIG with farnsworth := 10 } DEFAULT_CONFIG
    (by norm_num [DEFAULT_CONFIG]) (by norm_num [DEFAULT_CONFIG]) rfl rfl

/-! ## Claim theorems: on-event durations -/

theorem filterOn_signalEvents (u : ℚ) (sig : List Char) :
    ((signalEvents u sig).filter (fun e => e.type == EventType.on)).map
        (fun e => e.duration) = sig.map (sigDuration u) := by
  induction sig with
  | nil => rfl
  | cons s rest ih =>
    cases rest with
    | nil => rfl
    | cons s' rest' =>
      simp only [signalEvents, List.filter_cons, List.map_cons] at ih ⊢
      simp [ih]

theorem filterOn_charsEvents (u fu : ℚ) (cs : List (List Char)) :
    ((charsEvents u fu cs).filter (fun e => e.type == EventType.on)).map
        (fun e => e.duration) = cs.flatten.map (sigDuration u) := by
  induction cs with
  | nil => rfl
  | cons c cs' ih =>
    cases cs' with
    | nil =>
      simp only [charsEvents, List.flatten]
      by_cases hc : c = []
      · subst hc
        rfl
      · rw [if_neg hc, filterOn_signalEvents]
        simp
    | cons c' cs'' =>
      simp only [charsEvents, List.filter_append, List.map_append]
      by_cases hc : c = []
      · subst hc
        simp only [if_pos rfl, List.filter_nil, List.map_nil, List.nil_append, ih]
        rfl
      · rw [if_neg hc]
        simp only [List.filter_append, List.map_append, filterOn_signalEvents]
        simp [ih]

theorem filterOn_wordsEvents (u fu : ℚ) (ws : List (List Char)) :
    ((wordsEvents u fu ws).filter (fun e => e.type == EventType.on)).map
        (fun e => e.duration) =
      ((ws.map (fun w => (splitOnChar ' ' (trim w)).flatten)).flatten).map
        (sigDuration u) := by
  induction ws with
  | nil => rfl
  | cons w ws' ih =>
    cases ws' with
    | nil =>
      simp only [wordsEvents, List.map_cons, List.map_nil, List.flatten]
      rw [filterOn_charsEvents]
      simp
    | cons w' ws'' =>
      simp only [wordsEvents, List.filter_append, List.map_append, List.filter_cons]
      rw [filterOn_charsEvents]
      simp [ih]

/-- Claim C10: for `wpm > 0` every `on` event's duration is
`3 × (1200 / wpm)` exactly when its source symbol is `'-'` and
`1 × (1200 / wpm)` for any other symbol: the `on` durations, in order, are
the image of the signal characters under that rule, so an unexpected
character such as `'x'` is rendered as a dot-length `on` event rather than
rejected. -/
theorem claim10_dotLength (morse : List Char) (cfg : AppConfig) (h : 0 < cfg.wpm) :
    ((generateTimingSequence morse cfg).filter (fun e => e.type == EventType.on)).map
        (fun e => e.duration) =
      (signalChars morse).map (fun s =>
        if s = '-' then 3 * (1200 / cfg.wpm) else 1 * (1200 / cfg.wpm)) := by
  simp only [generateTimingSequence]
  rw [filterOn_wordsEvents, signalChars]
  apply List.map_congr_left
  intro s _
  simp [sigDuration, DASH_UNITS, DOT_UNITS]

/-- Instance of claim C10 at `morse = ".x-"` (which contains the
unexpected symbol `'x'`) and the default configuration: the three `on`
events are dot, dot, dash. -/
theorem claim10_witness :
    (0 : ℚ) < DEFAULT_CONFIG.wpm ∧
    ((generateTimingSequence ".x-".data DEFAULT_CONFIG).filter
        (fun e => e.type == EventType.on)).map (fun e => e.duration) =
      (signalChars ".x-".data).map (fun s =>
        if s = '-' then 3 * (1200 / DEFAULT_CONFIG.wpm)
        else 1 * (1200 / DEFAULT_CONFIG.wpm)) :=
  ⟨by norm_num [DEFAULT_CONFIG],
   claim10_dotLength ".x-".data DEFAULT_CONFIG (by norm_num [DEFAULT_CONFIG])⟩

/-! ## Claim theorems: WAV sample conversion -/

theorem jsTrunc_intCast (z : ℤ) : jsTrunc (z : ℚ) = z := by
  rw [jsTrunc]
  by_cases h : (0 : ℚ) ≤ (z : ℚ)
  · rw [if_pos h, Int.floor_intCast]
  · rw [if_neg h, Int.ceil_intCast]

theorem jsClamp_mem (x : ℚ) : -1 ≤ jsClamp x ∧ jsClamp x ≤ 1 := by
  constructor
  · exact le_max_left _ _
  · exact max_le (by norm_num) (min_le_left 1 x)

/-- Counterexample to claim C2 as stated: the clamped sample `-1/2` is
negative, yet the code multiplies it by 32767 (yielding -16383), not by
32768 (which would yield -16384): the condition `0.5 + sample < 0` in
`bufferToWav` is `(0.5 + sample) < 0`, i.e. `sample < -0.5`, by JavaScript
operator precedence. -/
theorem claim2_counterexample :
    jsClamp (-1/2 : ℚ) < 0 ∧
    sampleTo16 (-1/2) = -16383 ∧
    jsTrunc (jsClamp (-1/2 : ℚ) * 32768) = -16384 ∧
    sampleTo16 (-1/2) ≠ specSampleTo16 (-1/2) := by
  have hclamp : jsClamp (-1/2 : ℚ) = -1/2 := by
    rw [jsClamp]
    norm_num
  have hceil : (⌈(-1 / 2 * 32767 : ℚ)⌉ : ℤ) = -16383 := by
    rw [Int.ceil_eq_iff]
    constructor <;> norm_num
  have hcode : sampleTo16 (-1/2) = -16383 := by
    rw [sampleTo16, hclamp, if_neg (by norm_num), jsTrunc, if_neg (by norm_num), hceil]
  have hspec : specSampleTo16 (-1/2) = -16384 := by
    rw [specSampleTo16, hclamp, if_pos (by norm_num)]
    have : ((-1 : ℚ)/2 * 32768) = ((-16384 : ℤ) : ℚ) := by norm_num
    rw [this, jsTrunc_intCast]
  refine ⟨by rw [hclamp]; norm_num, hcode, ?_, ?_⟩
  · rw [hclamp]
    have : ((-1 : ℚ)/2 * 32768) = ((-16384 : ℤ) : ℚ) := by norm_num
    rw [this, jsTrunc_intCast]
  · rw [hcode, hspec]
    decide

/-- Claim C2 (amended): every sample is clamped to `[-1, 1]`; clamped
samples strictly below `-0.5` are multiplied by 32768 and all other clamped
samples (including negatives in `[-0.5, 0)`) by 32767, truncated toward
zero; the result always lies in the signed 16-bit range, and `-1.0` still
encodes to `-32768` while `1.0` encodes to `32767`. -/
theorem claim2_amended (x : ℚ) :
    sampleTo16 x =
      (if jsClamp x < -(1/2) then jsTrunc (jsClamp x * 32768)
       else jsTrunc (jsClamp x * 32767)) ∧
    (-32768 : ℤ) ≤ sampleTo16 x ∧ sampleTo16 x ≤ 32767 ∧
    sampleTo16 (-1) = -32768 ∧ sampleTo16 1 = 32767 := by
  obtain ⟨hlo, hhi⟩ := jsClamp_mem x
  have hsplit : sampleTo16 x =
      (if jsClamp x < -(1/2) then jsTrunc (jsClamp x * 32768)
       else jsTrunc (jsClamp x * 32767)) := by
    rw [sampleTo16, apply_ite jsTrunc]
    exact if_congr ⟨fun h => by linarith, fun h => by linarith⟩ rfl rfl
  have hneg : sampleTo16 (-1) = -32768 := by
    have hclamp : jsClamp (-1 : ℚ) = -1 := by
      rw [jsClamp]
      norm_num
    rw [sampleTo16, hclamp, if_pos (by norm_num)]
    have : ((-1 : ℚ) * 32768) = ((-32768 : ℤ) : ℚ) := by norm_num
    rw [this, jsTrunc_intCast]
  have hpos : sampleTo16 1 = 32767 := by
    have hclamp : jsClamp (1 : ℚ) = 1 := by
      rw [jsClamp]
      norm_num
    rw [sampleTo16, hclamp, if_neg (by norm_num)]
    have : ((1 : ℚ) * 32767) = ((32767 : ℤ) : ℚ) := by norm_num
    rw [this, jsTrunc_intCast]
  refine ⟨hsplit, ?_, ?_, hneg, hpos⟩
  · rw [hsplit]
    by_cases hc : jsClamp x < -(1/2)
    · rw [if_pos hc]
      have hv : ((-32768 : ℤ) : ℚ) ≤ jsClamp x * 32768 := by
        push_cast
        nlinarith
      have hvneg : jsClamp x * 32768 < 0 := by nlinarith
      rw [jsTrunc, if_neg (by linarith)]
      calc (-32768 : ℤ) = ⌈((-32768 : ℤ) : ℚ)⌉ := (Int.ceil_intCast _).symm
        _ ≤ ⌈jsClamp x * 32768⌉ := Int.ceil_le_ceil hv
    · rw [if_neg hc]
      have hv : ((-32768 : ℤ) : ℚ) ≤ jsClamp x * 32767 := by
        push_cast
        nlinarith
      rw [jsTrunc]
      by_cases h0 : (0 : ℚ) ≤ jsClamp x * 32767
      · rw [if_pos h0]
        have : (0 : ℤ) ≤ ⌊jsClamp x * 32767⌋ := Int.le_floor.mpr (by exact_mod_cast h0)
        omega
      · rw [if_neg h0]
        calc (-32768 : ℤ) = ⌈((-32768 : ℤ) : ℚ)⌉ := (Int.ceil_intCast _).symm
          _ ≤ ⌈jsClamp x * 32767⌉ := Int.ceil_le_ceil hv
  · rw [hsplit]
    by_cases hc : jsClamp x < -(1/2)
    · rw [if_pos hc]
      have hvneg : jsClamp x * 32768 ≤ 0 := by nlinarith
      rw [jsTrunc, if_neg (by nlinarith)]
      have : ⌈jsClamp x * 32768⌉ ≤ 0 := Int.ceil_le.mpr (by exact_mod_cast hvneg)
      omega
    · rw [if_neg hc]
      have hv : jsClamp x * 32767 ≤ ((32767 : ℤ) : ℚ) := by
        push_cast
        nlinarith
      rw [jsTrunc]
      by_cases h0 : (0 : ℚ) ≤ jsClamp x * 32767
      · rw [if_pos h0]
        calc ⌊jsClamp x * 32767⌋ ≤ ⌊((32767 : ℤ) : ℚ)⌋ := Int.floor_le_floor hv
          _ = 32767 := Int.floor_intCast _
      · rw [if_neg h0]
        have : ⌈jsClamp x * 32767⌉ ≤ 0 := Int.ceil_le.mpr (by push_cast; linarith)
        omega

/-! ## Claim theorems: WAV container layout -/

theorem readU32_cons (a : Nat) (l : List Nat) (n : Nat) :
    readU32 (a :: l) (n + 1) = readU32 l n := by
  simp [readU32, List.getD_cons_succ]

theorem readU16_cons (a : Nat) (l : List Nat) (n : Nat) :
    readU16 (a :: l) (n + 1) = readU16 l n := by
  simp [readU16, List.getD_cons_succ]

theorem readU32_head (a b c d : Nat) (l : List Nat) :
    readU32 (a :: b :: c :: d :: l) 0 = a + 256 * b + 2 ^ 16 * c + 2 ^ 24 * d := by
  simp [readU32, List.getD_cons_zero, List.getD_cons_succ]

theorem readU16_head (a b : Nat) (l : List Nat) :
    readU16 (a :: b :: l) 0 = a + 256 * b := by
  simp [readU16, List.getD_cons_zero, List.getD_cons_succ]

theorem length_flatten_two (f : Nat → List Nat) (hf : ∀ i, (f i).length = 2) :
    ∀ n : Nat, ((List.range n).map f).flatten.length = 2 * n := by
  intro n
  induction n with
  | zero => rfl
  | succ m ih =>
    rw [List.range_succ, List.map_append, List.flatten_append, List.length_append, ih]
    simp [hf]
    omega

theorem wavData_length_mono (ab : AudioBuffer) (h : ab.numberOfChannels = 1) :
    (wavData ab).length = 2 * ab.length := by
  rw [wavData, h]
  apply length_flatten_two
  intro i
  simp [show List.range 1 = [0] from rfl, i16Bytes, u16Bytes]

/-- Claim C6: encoding a mono buffer of `N` samples at 44,100 Hz yields
exactly `44 + 2N` bytes with the little-endian header fields of the claim:
`"RIFF"`, RIFF length `= total - 8`, `"WAVE"`, `"fmt "`, fmt length 16,
PCM format 1, one channel, sample rate 44100, byte rate `44100 × 2`,
block align 2, 16 bits per sample, `"data"`, data length `2N`.  (The
`2^32` bound keeps the u32 fields below the `setUint32` wrap.) -/
theorem claim6_wavHeader (samples : List ℚ) (h : 44 + 2 * samples.length < 2 ^ 32) :
    wavHeaderOK samples := by
  have hdata := wavData_length_mono (monoBuffer samples) rfl
  simp only [monoBuffer] at hdata
  simp only [wavHeaderOK]
  refine ⟨?_, ?_, ?_, ?_, ?_, ?_, ?_, ?_, ?_, ?_, ?_, ?_, ?_, ?_⟩
  all_goals simp only [monoBuffer, bufferToWav, u32Bytes, u16Bytes,
    List.cons_append, List.nil_append]
  · simp only [List.length_cons, hdata]
    omega
  · norm_num [List.take_succ_cons]
  · norm_num [readU32_cons, readU32_head]
    omega
  · norm_num [List.drop_succ_cons, List.take_succ_cons]
  · norm_num [List.drop_succ_cons, List.take_succ_cons]
  · norm_num [readU32_cons, readU32_head]
  · norm_num [readU16_cons, readU16_head]
  · norm_num [readU16_cons, readU16_head]
  · norm_num [readU32_cons, readU32_head]
  · norm_num [readU32_cons, readU32_head]
  · norm_num [readU16_cons, readU16_head]
  · norm_num [readU16_cons, readU16_head]
  · norm_num [List.drop_succ_cons, List.take_succ_cons]
  · norm_num [readU32_cons, readU32_head]
    omega

/-- Instance of claim C6 at the three-sample all-zero buffer. -/
theorem claim6_witness :
    44 + 2 * ([(0 : ℚ), 0, 0].length) < 2 ^ 32 ∧ wavHeaderOK [(0 : ℚ), 0, 0] :=
  ⟨by norm_num, claim6_wavHeader [(0 : ℚ), 0, 0] (by norm_num)⟩
